import Mathlib

/-!
Verification of the PDF header-removal service (`src/main.py`).

The program is a thin orchestration layer: a millimetre-to-point
conversion, a greedy rectangle union-merge (`union_rects`), and a
per-page redaction pipeline (`process_pdf_bytes`) exposed through an
HTTP endpoint (`remove_headers`).

Numbers: the Python code computes on IEEE doubles; we embed them as
exact rationals (`ℚ`).  All geometric comparisons in the source are
plain `>=`/`<=`/`min`/`max`, which the rational embedding reproduces
faithfully.
-/

namespace PdfHeader

/-- Axis-aligned rectangle `(x0, y0, x1, y1)` in point units, the shape of
`fitz.Rect` as used by the program. -/
structure Rect where
  x0 : ℚ
  y0 : ℚ
  x1 : ℚ
  y1 : ℚ
  deriving DecidableEq, Repr, Inhabited

/-- The inner-loop condition of `union_rects` (main.py line 34):
`r.x1 >= mr.x0 and r.x0 <= mr.x1 and r.y1 >= mr.y0 and r.y0 <= mr.y1`.
Inclusive comparisons, so edge-touching counts as intersecting. -/
def touches (r mr : Rect) : Bool :=
  mr.x0 ≤ r.x1 && r.x0 ≤ mr.x1 && mr.y0 ≤ r.y1 && r.y0 ≤ mr.y1

/-- The grown accumulator entry of `union_rects` (main.py lines 35-40):
`fitz.Rect(min(mr.x0, r.x0), min(mr.y0, r.y0), max(mr.x1, r.x1), max(mr.y1, r.y1))`. -/
def boundingUnion (mr r : Rect) : Rect :=
  ⟨min mr.x0 r.x0, min mr.y0 r.y0, max mr.x1 r.x1, max mr.y1 r.y1⟩

/-- The body of the outer loop of `union_rects` for one input rectangle `r`
(main.py lines 32-44): scan `merged` in order; at the first entry
intersecting `r` replace that entry by the bounding union and stop; if no
entry intersects, append a copy of `r` at the end. -/
def mergeInto (merged : List Rect) (r : Rect) : List Rect :=
  match merged with
  | [] => [r]
  | mr :: rest =>
      if touches r mr then boundingUnion mr r :: rest
      else mr :: mergeInto rest r

/-- `union_rects` (main.py lines 29-45): fold the inputs in order through
the accumulator, starting from the empty accumulator. -/
def union_rects (rects : List Rect) : List Rect :=
  rects.foldl mergeInto []

/-! ### Spec-side formulation of the union-merge (for the refinement claim)

The definitions below follow the words of spec section 4.2, not the code:
"for each input rectangle, scan the accumulator; if the rectangle
intersects or touches (shares a boundary with, inclusive comparison) any
existing accumulator entry, grow that entry to the bounding union of
itself and the rectangle, and stop scanning (first match wins); if no
existing entry intersects, append a new accumulator entry equal to the
input rectangle". -/

/-- Spec 4.2 / 9: "intersects or touches (shares a boundary with,
inclusive comparison)" — the intervals `[x0, x1]` and `[y0, y1]` of the
two rectangles both meet, boundaries included. -/
def specIntersectsOrTouches (r mr : Rect) : Bool :=
  max r.x0 mr.x0 ≤ min r.x1 mr.x1 && max r.y0 mr.y0 ≤ min r.y1 mr.y1

/-- Spec 4.2: "grow that entry to the bounding union of itself and the
rectangle" — the smallest rectangle containing both. -/
def specBoundingUnion (mr r : Rect) : Rect :=
  ⟨min mr.x0 r.x0, min mr.y0 r.y0, max mr.x1 r.x1, max mr.y1 r.y1⟩

/-- Spec 4.2, one input rectangle: locate the first accumulator entry the
rectangle intersects or touches; grow that entry in place, or append the
rectangle when there is none. -/
def specMergeStep (acc : List Rect) (r : Rect) : List Rect :=
  match acc.findIdx? (fun mr => specIntersectsOrTouches r mr) with
  | some i => acc.set i (specBoundingUnion (acc.getD i default) r)
  | none => acc ++ [r]

/-- Spec 4.2: the greedy single-pass union-merge, inputs processed in
order starting from an empty accumulator. -/
def specUnionMerge (l : List Rect) : List Rect :=
  l.foldl specMergeStep []

/-- `m` contains `r` coordinate-wise (`m` is a superset of `r` as a region). -/
def contains (m r : Rect) : Bool :=
  m.x0 ≤ r.x0 && r.x1 ≤ m.x1 && m.y0 ≤ r.y0 && r.y1 ≤ m.y1

/-- A well-formed rectangle: left edge not right of the right edge,
top not below the bottom. -/
def wf (r : Rect) : Prop := r.x0 ≤ r.x1 ∧ r.y0 ≤ r.y1

instance (r : Rect) : Decidable (wf r) := by unfold wf; infer_instance

/-- `PT_PER_INCH` (main.py line 8). -/
def PT_PER_INCH : ℚ := 72.0

/-- `MM_PER_INCH` (main.py line 9). -/
def MM_PER_INCH : ℚ := 25.4

/-- `mm_to_pt` (main.py lines 25-26): `mm * PT_PER_INCH / MM_PER_INCH`. -/
def mm_to_pt (mm : ℚ) : ℚ := mm * PT_PER_INCH / MM_PER_INCH

/-! ### Lemmas about the union-merge -/

theorem touches_comm (r mr : Rect) : touches r mr = touches mr r := by
  rw [Bool.eq_iff_iff]
  simp only [touches, Bool.and_eq_true, decide_eq_true_eq]
  tauto

theorem touches_eq_spec {r mr : Rect} (hr : wf r) (hmr : wf mr) :
    touches r mr = specIntersectsOrTouches r mr := by
  obtain ⟨hrx, hry⟩ := hr
  obtain ⟨hmx, hmy⟩ := hmr
  rw [Bool.eq_iff_iff]
  simp only [touches, specIntersectsOrTouches, Bool.and_eq_true, decide_eq_true_eq,
    max_le_iff, le_min_iff]
  constructor
  · intro h
    tauto
  · intro h
    tauto

theorem wf_boundingUnion {mr r : Rect} (hmr : wf mr) (_hr : wf r) :
    wf (boundingUnion mr r) := by
  obtain ⟨hx, hy⟩ := hmr
  refine ⟨le_trans (min_le_left _ _) (le_trans hx (le_max_left _ _)),
    le_trans (min_le_left _ _) (le_trans hy (le_max_left _ _))⟩

theorem specMergeStep_nil (r : Rect) : specMergeStep [] r = [r] := rfl

theorem specMergeStep_cons (mr : Rect) (rest : List Rect) (r : Rect) :
    specMergeStep (mr :: rest) r =
      if specIntersectsOrTouches r mr then specBoundingUnion mr r :: rest
      else mr :: specMergeStep rest r := by
  unfold specMergeStep
  rw [List.findIdx?_cons, List.findIdx?_succ]
  by_cases h : specIntersectsOrTouches r mr
  · simp [h]
  · simp only [h, Bool.false_eq_true, if_false]
    cases hfi : rest.findIdx? (fun mr => specIntersectsOrTouches r mr) with
    | none => simp
    | some i => simp [List.getD_cons_succ, List.set_cons_succ]

theorem wf_mergeInto {acc : List Rect} {r : Rect}
    (hacc : ∀ a ∈ acc, wf a) (hr : wf r) :
    ∀ a ∈ mergeInto acc r, wf a := by
  induction acc with
  | nil =>
    intro a ha
    simp only [mergeInto, List.mem_singleton] at ha
    exact ha ▸ hr
  | cons mr rest ih =>
    intro a ha
    have hmr : wf mr := hacc mr (List.mem_cons_self _ _)
    have hrest : ∀ a ∈ rest, wf a := fun a ha => hacc a (List.mem_cons_of_mem _ ha)
    simp only [mergeInto] at ha
    by_cases h : touches r mr
    · simp only [h, if_true, List.mem_cons] at ha
      rcases ha with ha | ha
      · exact ha ▸ wf_boundingUnion hmr hr
      · exact hrest a ha
    · simp only [h, Bool.false_eq_true, if_false, List.mem_cons] at ha
      rcases ha with ha | ha
      · exact ha ▸ hmr
      · exact ih hrest a ha

theorem mergeInto_eq_specMergeStep {acc : List Rect} {r : Rect}
    (hacc : ∀ a ∈ acc, wf a) (hr : wf r) :
    mergeInto acc r = specMergeStep acc r := by
  induction acc with
  | nil => rfl
  | cons mr rest ih =>
    have hmr : wf mr := hacc mr (List.mem_cons_self _ _)
    have hrest : ∀ a ∈ rest, wf a := fun a ha => hacc a (List.mem_cons_of_mem _ ha)
    rw [specMergeStep_cons, ← touches_eq_spec hr hmr]
    simp only [mergeInto]
    by_cases h : touches r mr
    · simp [h, boundingUnion, specBoundingUnion]
    · simp [h, ih hrest]

theorem foldl_mergeInto_eq_spec (l : List Rect) :
    ∀ acc : List Rect, (∀ a ∈ acc, wf a) → (∀ r ∈ l, wf r) →
      l.foldl mergeInto acc = l.foldl specMergeStep acc := by
  induction l with
  | nil => intro acc _ _; rfl
  | cons r rest ih =>
    intro acc hacc hl
    have hr : wf r := hl r (List.mem_cons_self _ _)
    have hrest : ∀ x ∈ rest, wf x := fun x hx => hl x (List.mem_cons_of_mem _ hx)
    simp only [List.foldl_cons]
    rw [← mergeInto_eq_specMergeStep hacc hr]
    exact ih (mergeInto acc r) (wf_mergeInto hacc hr) hrest

/-- **C1.** `union_rects` implements exactly the greedy single-pass
algorithm of the spec: for every input sequence of well-formed
rectangles processed in order, each rectangle is merged (grown to the
bounding union, inclusive comparisons so touching counts as
intersecting) into the first accumulator entry it intersects, scanning
stops there, and a non-intersecting rectangle is appended; the result is
the final accumulator in order.  Formally: on well-formed inputs the
code's `union_rects` coincides with `specUnionMerge`, the algorithm
transcribed from the spec's words. -/
theorem union_rects_refines_spec (l : List Rect) (hl : ∀ r ∈ l, wf r) :
    union_rects l = specUnionMerge l := by
  unfold union_rects specUnionMerge
  exact foldl_mergeInto_eq_spec l [] (by simp) hl

/-- Witness for **C1** at a concrete input. -/
theorem union_rects_refines_spec_witness :
    union_rects [⟨0,0,2,1⟩, ⟨1,0,3,1⟩, ⟨5,5,6,6⟩] =
      specUnionMerge [⟨0,0,2,1⟩, ⟨1,0,3,1⟩, ⟨5,5,6,6⟩] :=
  union_rects_refines_spec _ (by decide)

/-! ### Idempotence (C2) and disjointness of outputs (C3) -/

theorem mergeInto_of_no_touch {acc : List Rect} {r : Rect}
    (h : ∀ a ∈ acc, touches r a = false) :
    mergeInto acc r = acc ++ [r] := by
  induction acc with
  | nil => rfl
  | cons mr rest ih =>
    have hmr : touches r mr = false := h mr (List.mem_cons_self _ _)
    simp only [mergeInto, hmr, Bool.false_eq_true, if_false, List.cons_append,
      List.cons.injEq, true_and]
    exact ih fun a ha => h a (List.mem_cons_of_mem _ ha)

theorem foldl_mergeInto_of_pairwise_no_touch (l : List Rect) :
    ∀ acc : List Rect, (∀ b ∈ l, ∀ a ∈ acc, touches b a = false) →
      l.Pairwise (fun a b => touches b a = false) →
      l.foldl mergeInto acc = acc ++ l := by
  induction l with
  | nil => intro acc _ _; simp
  | cons b rest ih =>
    intro acc hacc hpw
    have hpw' := (List.pairwise_cons.mp hpw).2
    have hb := (List.pairwise_cons.mp hpw).1
    simp only [List.foldl_cons]
    rw [mergeInto_of_no_touch (hacc b (List.mem_cons_self _ _))]
    rw [ih (acc ++ [b]) ?_ hpw']
    · simp
    · intro c hc a ha
      rcases List.mem_append.mp ha with ha | ha
      · exact hacc c (List.mem_cons_of_mem _ hc) a ha
      · rw [List.mem_singleton.mp ha]
        exact hb c hc

/-- **C2 (amended).** `union_rects` is the identity on every list of
pairwise non-intersecting (non-touching) rectangles; consequently its
output is a fixed point exactly when that output is itself pairwise
non-intersecting.  (The original claim — a fixed point on *every*
output — fails: first-match-wins can leave intersecting entries in the
output, which a second pass merges further.) -/
theorem union_rects_id_of_pairwise_no_touch (l : List Rect)
    (h : l.Pairwise (fun a b => touches b a = false)) :
    union_rects l = l := by
  unfold union_rects
  rw [foldl_mergeInto_of_pairwise_no_touch l [] (by simp) h]
  simp

/-- Witness for **C2 (amended)** at a concrete input. -/
theorem union_rects_id_of_pairwise_no_touch_witness :
    union_rects [⟨0,0,1,1⟩, ⟨2,0,3,1⟩] = [⟨0,0,1,1⟩, ⟨2,0,3,1⟩] :=
  union_rects_id_of_pairwise_no_touch _ (by decide)

/-- **C2 counterexample.** Applying `union_rects` to its own output is
not the identity: with inputs `[0,0,1,1]`, `[2,0,3,1]`, `[0,0,3,1]`
(the third bridges the first two), the first pass returns
`[[0,0,3,1], [2,0,3,1]]` and the second pass merges these to
`[[0,0,3,1]]`. -/
theorem union_rects_not_idempotent :
    union_rects (union_rects [⟨0,0,1,1⟩, ⟨2,0,3,1⟩, ⟨0,0,3,1⟩]) ≠
      union_rects [⟨0,0,1,1⟩, ⟨2,0,3,1⟩, ⟨0,0,3,1⟩] := by decide

/-- **C3 counterexample.** The output of `union_rects` can contain two
intersecting rectangles: on inputs `[0,0,1,1]`, `[2,0,3,1]`,
`[0,0,3,1]` the output is `[[0,0,3,1], [2,0,3,1]]`, whose two entries
overlap. -/
theorem union_rects_output_can_touch :
    ¬ (union_rects [⟨0,0,1,1⟩, ⟨2,0,3,1⟩, ⟨0,0,3,1⟩]).Pairwise
        (fun a b => touches a b = false) := by decide

/-- **C3 (amended).** For every input list of at most two rectangles, no
two rectangles in the output of `union_rects` overlap or touch.  (With
three or more inputs the original claim fails: first-match-wins merging
can leave overlapping outputs when a later rectangle bridges two
previously separate accumulator entries.) -/
theorem union_rects_pairwise_of_short (l : List Rect) (h : l.length ≤ 2) :
    (union_rects l).Pairwise (fun a b => touches a b = false) := by
  match l with
  | [] => simp [union_rects]
  | [a] => simp [union_rects, mergeInto]
  | [a, b] =>
    simp only [union_rects, List.foldl_cons, List.foldl_nil, mergeInto]
    by_cases hba : touches b a
    · simp [hba]
    · simp only [hba, Bool.false_eq_true, if_false]
      refine List.pairwise_cons.mpr ⟨?_, List.pairwise_singleton _ _⟩
      intro c hc
      rw [List.mem_singleton.mp hc, touches_comm]
      exact Bool.of_not_eq_true hba
  | a :: b :: c :: rest => simp at h

/-- Witness for **C3 (amended)** at a concrete input. -/
theorem union_rects_pairwise_of_short_witness :
    (union_rects [⟨0,0,1,1⟩, ⟨2,0,3,1⟩]).Pairwise
      (fun a b => touches a b = false) :=
  union_rects_pairwise_of_short _ (by decide)

/-! ### Covering property (C4) -/

theorem contains_refl (r : Rect) : contains r r = true := by
  simp [contains]

theorem contains_trans {a b c : Rect} (hab : contains a b = true)
    (hbc : contains b c = true) : contains a c = true := by
  simp only [contains, Bool.and_eq_true, decide_eq_true_eq] at *
  exact ⟨⟨⟨le_trans hab.1.1.1 hbc.1.1.1, le_trans hbc.1.1.2 hab.1.1.2⟩,
    le_trans hab.1.2 hbc.1.2⟩, le_trans hbc.2 hab.2⟩

theorem contains_boundingUnion_left (mr r : Rect) :
    contains (boundingUnion mr r) mr = true := by
  simp [contains, boundingUnion]

theorem contains_boundingUnion_right (mr r : Rect) :
    contains (boundingUnion mr r) r = true := by
  simp [contains, boundingUnion]

theorem mergeInto_mono {acc : List Rect} (r : Rect) :
    ∀ m ∈ acc, ∃ m' ∈ mergeInto acc r, contains m' m = true := by
  induction acc with
  | nil => simp
  | cons mr rest ih =>
    intro m hm
    simp only [mergeInto]
    by_cases h : touches r mr
    · simp only [h, if_true]
      rcases List.mem_cons.mp hm with hm | hm
      · exact ⟨boundingUnion mr r, List.mem_cons_self _ _,
          hm ▸ contains_boundingUnion_left mr r⟩
      · exact ⟨m, List.mem_cons_of_mem _ hm, contains_refl m⟩
    · simp only [h, Bool.false_eq_true, if_false]
      rcases List.mem_cons.mp hm with hm | hm
      · exact ⟨mr, List.mem_cons_self _ _, hm ▸ contains_refl mr⟩
      · obtain ⟨m', hm', hc⟩ := ih m hm
        exact ⟨m', List.mem_cons_of_mem _ hm', hc⟩

theorem mergeInto_self (acc : List Rect) (r : Rect) :
    ∃ m ∈ mergeInto acc r, contains m r = true := by
  induction acc with
  | nil => exact ⟨r, List.mem_singleton_self r, contains_refl r⟩
  | cons mr rest ih =>
    simp only [mergeInto]
    by_cases h : touches r mr
    · simp only [h, if_true]
      exact ⟨boundingUnion mr r, List.mem_cons_self _ _,
        contains_boundingUnion_right mr r⟩
    · simp only [h, Bool.false_eq_true, if_false]
      obtain ⟨m, hm, hc⟩ := ih
      exact ⟨m, List.mem_cons_of_mem _ hm, hc⟩

theorem foldl_mergeInto_mono (l : List Rect) :
    ∀ acc : List Rect, ∀ m ∈ acc,
      ∃ m' ∈ l.foldl mergeInto acc, contains m' m = true := by
  induction l with
  | nil => exact fun acc m hm => ⟨m, hm, contains_refl m⟩
  | cons r rest ih =>
    intro acc m hm
    simp only [List.foldl_cons]
    obtain ⟨m1, hm1, hc1⟩ := mergeInto_mono r m hm
    obtain ⟨m2, hm2, hc2⟩ := ih (mergeInto acc r) m1 hm1
    exact ⟨m2, hm2, contains_trans hc2 hc1⟩

theorem foldl_mergeInto_covers (l : List Rect) :
    ∀ acc : List Rect, ∀ r ∈ l,
      ∃ m ∈ l.foldl mergeInto acc, contains m r = true := by
  induction l with
  | nil => simp
  | cons b rest ih =>
    intro acc r hr
    rcases List.mem_cons.mp hr with hr | hr
    · simp only [List.foldl_cons]
      obtain ⟨m1, hm1, hc1⟩ := mergeInto_self acc b
      obtain ⟨m2, hm2, hc2⟩ := foldl_mergeInto_mono rest (mergeInto acc b) m1 hm1
      exact ⟨m2, hm2, contains_trans hc2 (hr ▸ hc1)⟩
    · exact ih (mergeInto acc b) r hr

/-- **C4.** Every input rectangle is contained in some rectangle of the
output of `union_rects` (each emitted merged region is a superset of
every match rectangle it absorbed); and two disjoint, non-touching input
rectangles pass through unchanged, as two separate output entries. -/
theorem union_rects_covers :
    (∀ l : List Rect, ∀ r ∈ l, ∃ m ∈ union_rects l, contains m r = true) ∧
    (∀ r1 r2 : Rect, touches r2 r1 = false → union_rects [r1, r2] = [r1, r2]) := by
  constructor
  · intro l r hr
    exact foldl_mergeInto_covers l [] r hr
  · intro r1 r2 h
    simp [union_rects, mergeInto, h]

/-- Witness for **C4** at concrete inputs. -/
theorem union_rects_covers_witness :
    (∃ m ∈ union_rects [⟨0,0,2,1⟩, ⟨1,0,3,1⟩], contains m ⟨1,0,3,1⟩ = true) ∧
    union_rects [⟨0,0,1,1⟩, ⟨5,5,6,6⟩] = [⟨0,0,1,1⟩, ⟨5,5,6,6⟩] :=
  ⟨union_rects_covers.1 _ _ (by decide), union_rects_covers.2 _ _ (by decide)⟩

/-- **C5.** `mm_to_pt` is the pure linear map `mm * 72.0 / 25.4`
(72 points per inch divided by 25.4 mm per inch), and
`mm_to_pt 25.4 = 72.0` holds exactly (in the exact-rational embedding of
the arithmetic; the IEEE-double computation of the source also returns
exactly `72.0` on this input). -/
theorem mm_to_pt_spec :
    (∀ mm : ℚ, mm_to_pt mm = mm * 72.0 / 25.4) ∧ mm_to_pt 25.4 = 72.0 := by
  refine ⟨fun mm => rfl, ?_⟩
  norm_num [mm_to_pt, PT_PER_INCH, MM_PER_INCH]

/-! ### Document model and the processing pipeline

`process_pdf_bytes` (main.py lines 48-123) drives the PyMuPDF library.
We embed the library calls abstractly: a `Page` carries its bounding
rectangle, the outcomes of the two kinds of `search_for` calls the code
can make (clipped to the band, or page-wide), and the list of redaction
regions applied so far.  Exceptions become `Except` errors; the two
exception classes the per-term handler distinguishes (`TypeError`
versus any other exception) are the two constructors of `SearchErr`. -/

/-- Outcome class of a failing `page.search_for` call: `TypeError`
(old PyMuPDF without the `clip` keyword) or any other exception. -/
inductive SearchErr where
  | typeError
  | otherError
  deriving DecidableEq, Repr

/-- One page of the open document.  `clipSearch t band ic` is the result
of `page.search_for(t, quads=False, clip=band, flags=flags)`;
`fullSearch t ic` is the result of the unclipped
`page.search_for(t, quads=False, flags=flags)`; `redactions` records the
regions for which `add_redact_annot` + `apply_redactions` ran. -/
structure Page where
  rect : Rect
  clipSearch : String → Rect → Bool → Except SearchErr (List Rect)
  fullSearch : String → Bool → Except SearchErr (List Rect)
  redactions : List Rect

/-- `r.intersects(band)` of the PyMuPDF library, used by the fallback
post-filter (main.py lines 97 and 101): true when the geometric
intersection of the two rectangles is a non-empty rectangle.  Modelled
from the library's documented semantics (the call is library code, not
part of this repository). -/
def pyIntersects (r band : Rect) : Bool :=
  max r.x0 band.x0 < min r.x1 band.x1 && max r.y0 band.y0 < min r.y1 band.y1

/-- The per-term search with fallbacks (main.py lines 90-103): try the
clipped search; on `TypeError` fall back to an unclipped search filtered
to the band (a failure there propagates — this branch has no inner
`try`); on any other exception retry unclipped-and-filter, and if that
also fails treat the term as yielding no matches. -/
def searchTerm (p : Page) (t : String) (band : Rect) (ic : Bool) :
    Except SearchErr (List Rect) :=
  match p.clipSearch t band ic with
  | .ok found => .ok found
  | .error .typeError =>
      match p.fullSearch t ic with
      | .ok found => .ok (found.filter (fun r => pyIntersects r band))
      | .error e => .error e
  | .error .otherError =>
      match p.fullSearch t ic with
      | .ok found => .ok (found.filter (fun r => pyIntersects r band))
      | .error _ => .ok []

/-- The per-page detection band (main.py lines 79-84):
`fitz.Rect(x0 + margin_pt, y0, x1 - margin_pt, y0 + band_h_pt)`. -/
def bandRect (pageRect : Rect) (margin_pt band_h_pt : ℚ) : Rect :=
  ⟨pageRect.x0 + margin_pt, pageRect.y0, pageRect.x1 - margin_pt,
    pageRect.y0 + band_h_pt⟩

/-- One iteration of the hit-collection loop (main.py lines 87-105):
skip an empty term (`if not t: continue`), otherwise extend `all_hits`
with the term's matches; an exception escaping the per-term handling
aborts the loop. -/
def hitsStep (p : Page) (band : Rect) (ic : Bool)
    (acc : Except SearchErr (List Rect)) (t : String) :
    Except SearchErr (List Rect) :=
  match acc with
  | .error e => .error e
  | .ok hits =>
      if t = "" then .ok hits
      else
        match searchTerm p t band ic with
        | .ok found => .ok (hits ++ found)
        | .error e => .error e

/-- The hit-collection loop over the terms (main.py lines 86-105). -/
def collectHits (terms : List String) (p : Page) (band : Rect) (ic : Bool) :
    Except SearchErr (List Rect) :=
  terms.foldl (hitsStep p band ic) (.ok [])

/-- Processing of one page (main.py lines 74-111): compute the band,
collect the hits of every term, and when the combined list is non-empty
apply one redaction per merged region of `union_rects`. -/
def processPage (terms : List String) (band_h_pt margin_pt : ℚ) (ic : Bool)
    (p : Page) : Except SearchErr Page :=
  let band := bandRect p.rect margin_pt band_h_pt
  match collectHits terms p band ic with
  | .error e => .error e
  | .ok hits =>
      if hits.isEmpty then .ok p
      else .ok { p with redactions := p.redactions ++ union_rects hits }

/-- The page loop (main.py lines 74-111): pages processed in order, the
first escaping exception aborts the loop. -/
def processPages (terms : List String) (band_h_pt margin_pt : ℚ) (ic : Bool) :
    List Page → Except SearchErr (List Page)
  | [] => .ok []
  | p :: ps =>
      match processPage terms band_h_pt margin_pt ic p with
      | .error e => .error e
      | .ok p' =>
          match processPages terms band_h_pt margin_pt ic ps with
          | .error e => .error e
          | .ok ps' => .ok (p' :: ps')

/-- The open document: its pages, and whether `doc.save` raises. -/
structure Doc where
  pages : List Page
  saveFails : Bool

/-- Error classes of `process_pdf_bytes`.  In the source both are
`ValueError`s, distinguished by their message: `invalidInput` covers
"En az bir header metni girilmelidir." and "PDF açılamadı: ...",
`processingError` covers "PDF işleme hatası: ...". -/
inductive PErr where
  | invalidInput
  | processingError
  deriving DecidableEq, Repr

/-- Python `str.strip()` on the characters of one line: drop leading and
trailing whitespace. -/
def strip (l : List Char) : List Char :=
  ((l.dropWhile Char.isWhitespace).reverse.dropWhile Char.isWhitespace).reverse

/-- `terms = [ln.strip() for ln in terms_text.splitlines() if ln.strip()]`
(main.py line 56): split on newlines, trim each line, drop blanks.
(Python `splitlines` also honours `\r` and other line terminators; the
embedding splits on `'\n'`, which covers the spec's "newline-separated"
inputs.) -/
def parseTerms (terms_text : String) : List String :=
  ((terms_text.toList.splitOn '\n').map (fun ln => (strip ln).asString)).filter
    (fun t => t ≠ "")

/-- The observable outcome of `process_pdf_bytes`: its result (the
processed document standing in for the serialized bytes, or the raised
`ValueError`'s class), whether `fitz.open` succeeded, and whether the
document was closed again before returning/raising. -/
structure ProcOutcome where
  result : Except PErr Doc
  opened : Bool
  closed : Bool

/-- `process_pdf_bytes` (main.py lines 48-123).  `openResult` is the
outcome of `fitz.open(stream=pdf_bytes, filetype="pdf")`: `none` when it
raises.  Order of the source: parse the terms and fail on zero terms
before opening; fail with the open-error `ValueError` when opening
fails; then, inside the `try`, process every page and save, closing the
document on both the success path (line 115) and, via the handler of
lines 118-123, on every failure path. -/
def process_pdf_bytes (terms_text : String) (openResult : Option Doc)
    (band_mm margin_mm : ℚ) (ic : Bool) : ProcOutcome :=
  let terms := parseTerms terms_text
  if terms.isEmpty then
    ⟨.error .invalidInput, false, false⟩
  else
    match openResult with
    | none => ⟨.error .invalidInput, false, false⟩
    | some doc =>
        let band_h_pt := mm_to_pt band_mm
        let margin_pt := mm_to_pt margin_mm
        match processPages terms band_h_pt margin_pt ic doc.pages with
        | .error _ => ⟨.error .processingError, true, true⟩
        | .ok pages' =>
            if doc.saveFails then ⟨.error .processingError, true, true⟩
            else ⟨.ok { doc with pages := pages' }, true, true⟩

/-- HTTP response of the `/remove-headers` endpoint. -/
inductive Response where
  | file (doc : Doc) (filename : String)
  | clientError
  | serverError

/-- `file.filename.rsplit(".", 1)[0] if file.filename else "output"`
(main.py line 155). -/
def baseName (filename : Option String) : String :=
  match filename with
  | none => "output"
  | some f =>
      if f = "" then "output"
      else
        let parts := f.splitOn "."
        if parts.length ≤ 1 then f
        else String.intercalate "." parts.dropLast

/-- The `remove_headers` endpoint (main.py lines 126-164): reject a bad
content type with a 400 before any processing; run
`process_pdf_bytes`; a `ValueError` becomes a 400 JSON error (any other
exception a 500); on success stream the result as
`<basename>_noheaders.pdf`. -/
def remove_headers (contentType : String) (filename : Option String)
    (openResult : Option Doc) (header_texts : String)
    (band_mm margin_mm : ℚ) (ic : Bool) : Response :=
  if contentType ≠ "application/pdf" ∧ contentType ≠ "application/octet-stream" then
    .clientError
  else
    match (process_pdf_bytes header_texts openResult band_mm margin_mm ic).result with
    | .error _ => .clientError
    | .ok doc => .file doc (baseName filename ++ "_noheaders.pdf")

/-! ### The detection band (C6) -/

/-- **C6 counterexample.** The claim "for all non-negative
`band_mm`/`margin_mm` the band lies within the page bounds whenever the
margin is small enough" fails: on an A4-like page `[0, 0, 595, 842]`
with `band_mm = 1000` and the smallest possible margin `margin_mm = 0`,
the band's bottom edge `mm_to_pt 1000 ≈ 2834.6 pt` lies below the page
bottom `842`, so no margin makes the band fit. -/
theorem bandRect_exceeds_page :
    contains ⟨0, 0, 595, 842⟩
      (bandRect ⟨0, 0, 595, 842⟩ (mm_to_pt 0) (mm_to_pt 1000)) = false := by
  norm_num [contains, bandRect, mm_to_pt, PT_PER_INCH, MM_PER_INCH]

/-- **C6 (amended).** For every page, the detection band rectangle
equals `[x0 + mm_to_pt margin_mm, y0, x1 - mm_to_pt margin_mm,
y0 + mm_to_pt band_mm]`; and for all non-negative `band_mm`/`margin_mm`
it lies within the page bounds whenever the band height fits the page
(`mm_to_pt band_mm ≤ y1 - y0`) — margin smallness beyond nonnegativity
is not required, while no bound on the margin rescues an oversized
band. -/
theorem bandRect_spec (page : Rect) (band_mm margin_mm : ℚ)
    (_hb : 0 ≤ band_mm) (hm : 0 ≤ margin_mm)
    (hband : mm_to_pt band_mm ≤ page.y1 - page.y0) :
    bandRect page (mm_to_pt margin_mm) (mm_to_pt band_mm) =
      ⟨page.x0 + mm_to_pt margin_mm, page.y0,
        page.x1 - mm_to_pt margin_mm, page.y0 + mm_to_pt band_mm⟩ ∧
    contains page (bandRect page (mm_to_pt margin_mm) (mm_to_pt band_mm)) = true := by
  have hmp : 0 ≤ mm_to_pt margin_mm := by
    unfold mm_to_pt PT_PER_INCH MM_PER_INCH
    positivity
  refine ⟨rfl, ?_⟩
  simp only [contains, bandRect, Bool.and_eq_true, decide_eq_true_eq]
  exact ⟨⟨⟨by linarith, by linarith⟩, le_refl _⟩, by linarith⟩

/-- Witness for **C6 (amended)** at a concrete page and configuration. -/
theorem bandRect_spec_witness :
    bandRect ⟨0, 0, 595, 842⟩ (mm_to_pt 10) (mm_to_pt 25) =
      ⟨(0 : ℚ) + mm_to_pt 10, 0, 595 - mm_to_pt 10, (0 : ℚ) + mm_to_pt 25⟩ ∧
    contains ⟨0, 0, 595, 842⟩
      (bandRect ⟨0, 0, 595, 842⟩ (mm_to_pt 10) (mm_to_pt 25)) = true :=
  bandRect_spec ⟨0, 0, 595, 842⟩ 25 10 (by norm_num) (by norm_num)
    (by norm_num [mm_to_pt, PT_PER_INCH, MM_PER_INCH])

/-! ### Rejection of blank header text (C7) -/

/-- **C7.** `process_pdf_bytes` splits `header_texts` on newlines, trims
each line and discards blank lines; whenever every line is blank (which
includes the empty string), it fails with the `InvalidInput`-class error
without having opened the document, and the endpoint surfaces this as a
400 response. -/
theorem blank_header_texts_rejected (header_texts : String)
    (h : ∀ ln ∈ header_texts.toList.splitOn '\n', strip ln = [])
    (openResult : Option Doc) (filename : Option String)
    (band_mm margin_mm : ℚ) (ic : Bool) :
    (process_pdf_bytes header_texts openResult band_mm margin_mm ic).result
        = .error .invalidInput ∧
    (process_pdf_bytes header_texts openResult band_mm margin_mm ic).opened
        = false ∧
    remove_headers "application/pdf" filename openResult header_texts
        band_mm margin_mm ic = .clientError := by
  have hpt : parseTerms header_texts = [] := by
    unfold parseTerms
    rw [List.filter_eq_nil_iff]
    intro a ha
    obtain ⟨ln, hln, rfl⟩ := List.mem_map.mp ha
    rw [h ln hln]
    decide
  refine ⟨?_, ?_, ?_⟩ <;> simp [process_pdf_bytes, remove_headers, hpt]

/-- Witness for **C7** on the concrete input `"\n  \n"`. -/
theorem blank_header_texts_rejected_witness :
    (process_pdf_bytes "\n  \n" (some ⟨[], false⟩) 25 0 false).result
        = .error .invalidInput ∧
    (process_pdf_bytes "\n  \n" (some ⟨[], false⟩) 25 0 false).opened = false ∧
    remove_headers "application/pdf" (some "doc.pdf") (some ⟨[], false⟩)
        "\n  \n" 25 0 false = .clientError :=
  blank_header_texts_rejected "\n  \n" (by decide) (some ⟨[], false⟩)
    (some "doc.pdf") 25 0 false

/-! ### Error classes and resource release (C8) -/

theorem process_closed_eq_opened (terms_text : String) (openResult : Option Doc)
    (band_mm margin_mm : ℚ) (ic : Bool) :
    (process_pdf_bytes terms_text openResult band_mm margin_mm ic).closed =
      (process_pdf_bytes terms_text openResult band_mm margin_mm ic).opened := by
  unfold process_pdf_bytes
  by_cases h1 : (parseTerms terms_text).isEmpty
  · simp [h1]
  · simp only [h1, Bool.false_eq_true, if_false]
    cases openResult with
    | none => rfl
    | some doc =>
        cases hp : processPages (parseTerms terms_text) (mm_to_pt band_mm)
            (mm_to_pt margin_mm) ic doc.pages with
        | error e => simp [hp]
        | ok pages' =>
            by_cases hs : doc.saveFails <;> simp [hp, hs]

/-- **C8.** `process_pdf_bytes` fails with the `InvalidInput`-class
error when the document cannot be opened; it wraps a failure escaping
the page loop, and a failure of `doc.save`, in the
`ProcessingError`-class error, and on each of those failure paths — and
in fact on every path on which the document was opened — the document is
closed before the error propagates. -/
theorem process_error_paths (terms_text : String) (doc : Doc)
    (band_mm margin_mm : ℚ) (ic : Bool) :
    (parseTerms terms_text ≠ [] →
      (process_pdf_bytes terms_text none band_mm margin_mm ic).result
        = .error .invalidInput) ∧
    (∀ e : SearchErr, parseTerms terms_text ≠ [] →
      processPages (parseTerms terms_text) (mm_to_pt band_mm) (mm_to_pt margin_mm)
          ic doc.pages = .error e →
      (process_pdf_bytes terms_text (some doc) band_mm margin_mm ic).result
          = .error .processingError ∧
      (process_pdf_bytes terms_text (some doc) band_mm margin_mm ic).closed
          = true) ∧
    (∀ pages' : List Page, parseTerms terms_text ≠ [] → doc.saveFails = true →
      processPages (parseTerms terms_text) (mm_to_pt band_mm) (mm_to_pt margin_mm)
          ic doc.pages = .ok pages' →
      (process_pdf_bytes terms_text (some doc) band_mm margin_mm ic).result
          = .error .processingError ∧
      (process_pdf_bytes terms_text (some doc) band_mm margin_mm ic).closed
          = true) ∧
    (∀ openResult : Option Doc,
      (process_pdf_bytes terms_text openResult band_mm margin_mm ic).opened = true →
      (process_pdf_bytes terms_text openResult band_mm margin_mm ic).closed = true) := by
  refine ⟨?_, ?_, ?_, ?_⟩
  · intro h
    have hne : (parseTerms terms_text).isEmpty = false := List.isEmpty_eq_false.mpr h
    simp [process_pdf_bytes, hne]
  · intro e h hp
    have hne : (parseTerms terms_text).isEmpty = false := List.isEmpty_eq_false.mpr h
    refine ⟨?_, ?_⟩ <;> simp [process_pdf_bytes, hne, hp]
  · intro pages' h hs hp
    have hne : (parseTerms terms_text).isEmpty = false := List.isEmpty_eq_false.mpr h
    refine ⟨?_, ?_⟩ <;> simp [process_pdf_bytes, hne, hp, hs]
  · intro openResult ho
    rw [process_closed_eq_opened, ho]

/-- Witness for **C8**: a document whose only page raises on both search
calls (page-loop failure), a document whose save raises (serialization
failure), and a failing open. -/
theorem process_error_paths_witness :
    (process_pdf_bytes "X" none 25 0 false).result = .error .invalidInput ∧
    (process_pdf_bytes "X"
        (some ⟨[⟨⟨0,0,595,842⟩, fun _ _ _ => .error .typeError,
            fun _ _ => .error .otherError, []⟩], false⟩) 25 0 false).result
      = .error .processingError ∧
    (process_pdf_bytes "X"
        (some ⟨[⟨⟨0,0,595,842⟩, fun _ _ _ => .error .typeError,
            fun _ _ => .error .otherError, []⟩], false⟩) 25 0 false).closed = true ∧
    (process_pdf_bytes "X" (some ⟨[], true⟩) 25 0 false).result
      = .error .processingError ∧
    (process_pdf_bytes "X" (some ⟨[], true⟩) 25 0 false).closed = true := by
  have hne : parseTerms "X" ≠ [] := by decide
  have h1 := (process_error_paths "X"
    ⟨[⟨⟨0,0,595,842⟩, fun _ _ _ => .error .typeError,
        fun _ _ => .error .otherError, []⟩], false⟩ 25 0 false).2.1
    .otherError hne rfl
  have h2 := (process_error_paths "X" ⟨[], true⟩ 25 0 false).2.2.1
    [] hne rfl rfl
  exact ⟨(process_error_paths "X" ⟨[], true⟩ 25 0 false).1 hne,
    h1.1, h1.2, h2.1, h2.2⟩

/-! ### Redaction only on matched pages (C9) -/

theorem foldl_hitsStep_of_empty {p : Page} {band : Rect} {ic : Bool}
    (terms : List String)
    (h : ∀ t ∈ terms, searchTerm p t band ic = .ok []) :
    ∀ hits : List Rect,
      terms.foldl (hitsStep p band ic) (.ok hits) = .ok hits := by
  induction terms with
  | nil => intro hits; rfl
  | cons t rest ih =>
    intro hits
    have ht := h t (List.mem_cons_self _ _)
    have hrest : ∀ t ∈ rest, searchTerm p t band ic = .ok [] :=
      fun t ht => h t (List.mem_cons_of_mem _ ht)
    simp only [List.foldl_cons, hitsStep]
    by_cases he : t = ""
    · simp only [he, if_true]
      exact ih hrest hits
    · simp only [he, if_false, ht, List.append_nil]
      exact ih hrest hits

/-- **C9.** Redaction is applied only on pages whose combined match list
is non-empty, and only to the merged regions produced by `union_rects`:
a page on which every term's search returns zero matches in the band is
returned unchanged (no redactions added), and any processed page either
keeps its redaction list or extends it exactly by `union_rects` of its
non-empty combined hit list. -/
theorem redaction_only_on_matches (terms : List String)
    (band_h_pt margin_pt : ℚ) (ic : Bool) (p : Page) :
    ((∀ t ∈ terms,
        searchTerm p t (bandRect p.rect margin_pt band_h_pt) ic = .ok []) →
      processPage terms band_h_pt margin_pt ic p = .ok p) ∧
    (∀ p' : Page, processPage terms band_h_pt margin_pt ic p = .ok p' →
      p'.redactions = p.redactions ∨
      ∃ hits : List Rect,
        collectHits terms p (bandRect p.rect margin_pt band_h_pt) ic = .ok hits ∧
        hits ≠ [] ∧
        p'.redactions = p.redactions ++ union_rects hits) := by
  constructor
  · intro h
    have hc : collectHits terms p (bandRect p.rect margin_pt band_h_pt) ic
        = .ok [] := foldl_hitsStep_of_empty terms h []
    simp [processPage, hc]
  · intro p' hp'
    unfold processPage at hp'
    cases hc : collectHits terms p (bandRect p.rect margin_pt band_h_pt) ic with
    | error e => simp [hc] at hp'
    | ok hits =>
        simp only [hc] at hp'
        by_cases hne : hits.isEmpty
        · left
          simp only [hne, if_true, Except.ok.injEq] at hp'
          rw [← hp']
        · right
          simp only [hne, Bool.false_eq_true, if_false, Except.ok.injEq] at hp'
          exact ⟨hits, rfl, List.isEmpty_eq_false.mp (Bool.of_not_eq_true hne),
            by rw [← hp']⟩

/-- Witness for **C9**: a page whose searches all return no matches is
returned unchanged, existing redactions and all. -/
theorem redaction_only_on_matches_witness :
    processPage ["Header"] (mm_to_pt 25) (mm_to_pt 0) false
        ⟨⟨0,0,595,842⟩, fun _ _ _ => .ok [], fun _ _ => .ok [], [⟨1,1,2,2⟩]⟩
      = .ok ⟨⟨0,0,595,842⟩, fun _ _ _ => .ok [], fun _ _ => .ok [], [⟨1,1,2,2⟩]⟩ :=
  (redaction_only_on_matches ["Header"] (mm_to_pt 25) (mm_to_pt 0) false
    ⟨⟨0,0,595,842⟩, fun _ _ _ => .ok [], fun _ _ => .ok [], [⟨1,1,2,2⟩]⟩).1
    (fun _ _ => rfl)

/-! ### Heap model of `union_rects` (C10)

`union_rects` takes a Python list of `fitz.Rect` objects.  To reason
about mutation and aliasing we re-run the function over an explicit
object store: a store is the list of all allocated rectangle objects, an
address is an index into it, and each `fitz.Rect(...)` constructor call
(main.py lines 35 and 44) appends one fresh object.  The input is a
list of addresses; attribute reads (`r.x0`, `mr.x1`, ...) read the store
at the address.  The store is only ever extended, never written at an
existing address, which is exactly what the source does: it constructs
new `fitz.Rect` objects and rebinds `merged[i]`, but never assigns to a
field of an argument object. -/

/-- The inner loop of `union_rects` over the store `σ`: `r` is the value
of the current input rectangle, the `List Nat` is the accumulator of
object addresses.  On the first intersecting entry a fresh bounding
union object is allocated and the entry is rebound to it; with no
intersecting entry a fresh copy of `r` is allocated and appended. -/
def mergeIntoH (σ : List Rect) (r : Rect) : List Nat → List Rect × List Nat
  | [] => (σ ++ [r], [σ.length])
  | ma :: rest =>
      if touches r (σ.getD ma default) then
        (σ ++ [boundingUnion (σ.getD ma default) r], σ.length :: rest)
      else
        let res := mergeIntoH σ r rest
        (res.1, ma :: res.2)

/-- `union_rects` over the object store: fold the input addresses
through the accumulator, reading each input's value from the current
store, starting from the empty accumulator.  Returns the final store
and the addresses of the output list. -/
def union_rectsH (σ₀ : List Rect) (inputs : List Nat) : List Rect × List Nat :=
  inputs.foldl (fun st a => mergeIntoH st.1 (st.1.getD a default) st.2) (σ₀, [])

theorem mergeIntoH_shape (m : List Nat) (σ : List Rect) (r : Rect) :
    ∃ x, (mergeIntoH σ r m).1 = σ ++ [x] ∧
      ∀ b ∈ (mergeIntoH σ r m).2, b ∈ m ∨ b = σ.length := by
  induction m with
  | nil => exact ⟨r, rfl, by simp [mergeIntoH]⟩
  | cons ma rest ih =>
    by_cases h : touches r (σ.getD ma default)
    · refine ⟨boundingUnion (σ.getD ma default) r,
        by simp only [mergeIntoH, h, if_true], ?_⟩
      intro b hb
      simp only [mergeIntoH, h, if_true, List.mem_cons] at hb
      rcases hb with hb | hb
      · exact Or.inr hb
      · exact Or.inl (List.mem_cons_of_mem _ hb)
    · obtain ⟨x, h1, h2⟩ := ih
      refine ⟨x, by simp only [mergeIntoH, h, Bool.false_eq_true, if_false, h1], ?_⟩
      intro b hb
      simp only [mergeIntoH, h, Bool.false_eq_true, if_false, List.mem_cons] at hb
      rcases hb with hb | hb
      · exact Or.inl (hb ▸ List.mem_cons_self _ _)
      · rcases h2 b hb with hb' | hb'
        · exact Or.inl (List.mem_cons_of_mem _ hb')
        · exact Or.inr hb'

theorem union_rectsH_fold (σ₀ : List Rect) (inputs : List Nat) :
    ∀ (σ : List Rect) (acc : List Nat),
      (∃ t, σ = σ₀ ++ t) → (∀ b ∈ acc, σ₀.length ≤ b) →
      (∃ t, (inputs.foldl
          (fun st a => mergeIntoH st.1 (st.1.getD a default) st.2) (σ, acc)).1
        = σ₀ ++ t) ∧
      (∀ b ∈ (inputs.foldl
          (fun st a => mergeIntoH st.1 (st.1.getD a default) st.2) (σ, acc)).2,
        σ₀.length ≤ b) := by
  induction inputs with
  | nil => exact fun σ acc h1 h2 => ⟨h1, h2⟩
  | cons a rest ih =>
    rintro σ acc ⟨t, rfl⟩ h2
    simp only [List.foldl_cons]
    obtain ⟨x, hx1, hx2⟩ :=
      mergeIntoH_shape acc (σ₀ ++ t) ((σ₀ ++ t).getD a default)
    have hpair : mergeIntoH (σ₀ ++ t) ((σ₀ ++ t).getD a default) acc =
        ((mergeIntoH (σ₀ ++ t) ((σ₀ ++ t).getD a default) acc).1,
         (mergeIntoH (σ₀ ++ t) ((σ₀ ++ t).getD a default) acc).2) := rfl
    rw [hpair, hx1]
    apply ih
    · exact ⟨t ++ [x], by rw [List.append_assoc]⟩
    · intro b hb
      rcases hx2 b hb with hb' | hb'
      · exact h2 b hb'
      · rw [hb', List.length_append]
        omega

/-- **C10.** The heap model of `union_rects` never mutates its argument:
for every initial store and every list of valid input addresses, the
value stored at each pre-existing address is unchanged after the run,
every output address is freshly allocated (at or beyond the old store
size), and in particular no output rectangle aliases an input
rectangle. -/
theorem union_rectsH_no_mutation (σ₀ : List Rect) (inputs : List Nat)
    (hin : ∀ a ∈ inputs, a < σ₀.length) :
    (∀ a, a < σ₀.length →
      (union_rectsH σ₀ inputs).1.getD a default = σ₀.getD a default) ∧
    (∀ b ∈ (union_rectsH σ₀ inputs).2, σ₀.length ≤ b) ∧
    (∀ b ∈ (union_rectsH σ₀ inputs).2, ∀ a ∈ inputs, b ≠ a) := by
  obtain ⟨⟨t, ht⟩, hfresh⟩ :=
    union_rectsH_fold σ₀ inputs σ₀ [] ⟨[], by simp⟩ (by simp)
  refine ⟨?_, hfresh, ?_⟩
  · intro a ha
    unfold union_rectsH
    rw [ht]
    exact List.getD_append σ₀ t default a ha
  · intro b hb a ha
    exact Nat.ne_of_gt (lt_of_lt_of_le (hin a ha) (hfresh b hb))

/-- Witness for **C10** on a concrete two-object store. -/
theorem union_rectsH_no_mutation_witness :
    (∀ a, a < ([⟨0,0,1,1⟩, ⟨0,0,2,2⟩] : List Rect).length →
      (union_rectsH [⟨0,0,1,1⟩, ⟨0,0,2,2⟩] [0, 1]).1.getD a default
        = ([⟨0,0,1,1⟩, ⟨0,0,2,2⟩] : List Rect).getD a default) ∧
    (∀ b ∈ (union_rectsH [⟨0,0,1,1⟩, ⟨0,0,2,2⟩] [0, 1]).2,
      ([⟨0,0,1,1⟩, ⟨0,0,2,2⟩] : List Rect).length ≤ b) ∧
    (∀ b ∈ (union_rectsH [⟨0,0,1,1⟩, ⟨0,0,2,2⟩] [0, 1]).2,
      ∀ a ∈ ([0, 1] : List Nat), b ≠ a) :=
  union_rectsH_no_mutation [⟨0,0,1,1⟩, ⟨0,0,2,2⟩] [0, 1] (by decide)

end PdfHeader
